import Mathlib

/-!
# Verification of the kubectl-ai agentic tool-orchestration layer

Shallow embedding, in Lean 4, of the core algorithms of the `kubectl-ai`
repository, together with proofs of the specification claims about them:

* `pkg/agent/conversation.go` — the textual tool-use shim
  (`extractJSON`, `parseReActResponse`, `candidateToShimCandidate`,
  `ShimCandidate.Parts`, `ShimPart.AsFunctionCalls`) and the bounded
  agentic loop `Conversation.RunOneRound`;
* `pkg/mcp/manager.go` — `Manager.ConnectAll`;
* `pkg/mcp/client.go` — `Client.Connect`;
* `pkg/mcp/config.go` — `LoadConfig` / `Config.Save` /
  `Config.MigrateFromLegacy` / `Config.ValidateConfig`;
* `pkg/mcp/utils.go` — `RetryOperation`;
* `pkg/tools/mcp_tool.go` — `convertArgsForMCP`, `snakeToCamelCase`,
  `convertValueType`, `convertToNumber`, `convertToBoolean`.

Strings are modelled as `String` (Lean) and manipulated through their
character lists.  Go indexes strings by bytes; all search patterns used by
the code (` ```json `, ` ``` `) are ASCII, and in UTF-8 an ASCII pattern can
only match at a character boundary, so character indices are a faithful
model of the byte indices used by `strings.Index` / `strings.LastIndex`.
-/

namespace KubectlAI

/-! ## Character-list search primitives

`firstIdx pat s` models Go `strings.Index(s, pat)` and `lastIdx pat s`
models `strings.LastIndex(s, pat)`, both returning `none` for Go's `-1`.
Like Go, an empty pattern matches at index 0 (resp. `s.length`). -/

def firstIdx (pat : List Char) : List Char → Option Nat
  | [] => if pat.isPrefixOf ([] : List Char) then some 0 else none
  | c :: t =>
    if pat.isPrefixOf (c :: t) then some 0
    else (firstIdx pat t).map (· + 1)

def lastIdx (pat : List Char) : List Char → Option Nat
  | [] => if pat.isPrefixOf ([] : List Char) then some 0 else none
  | c :: t =>
    match lastIdx pat t with
    | some i => some (i + 1)
    | none => if pat.isPrefixOf (c :: t) then some 0 else none

theorem firstIdx_eq_some {pat s : List Char} {n : Nat} :
    firstIdx pat s = some n ↔
      (pat <+: s.drop n ∧ ∀ m, m < n → ¬ pat <+: s.drop m) := by
  induction s generalizing n with
  | nil =>
    simp only [firstIdx]
    by_cases h : pat.isPrefixOf ([] : List Char)
    · simp only [if_pos h, Option.some.injEq]
      constructor
      · rintro rfl
        exact ⟨List.isPrefixOf_iff_prefix.mp h, fun m hm => absurd hm (Nat.not_lt_zero m)⟩
      · rintro ⟨hp, hmin⟩
        by_contra hne
        exact hmin 0 (Nat.pos_of_ne_zero (fun h0 => hne (h0 ▸ rfl)))
          (by simpa using List.isPrefixOf_iff_prefix.mp h)
    · simp only [if_neg h]
      constructor
      · intro hfalse; exact absurd hfalse (by simp)
      · rintro ⟨hp, -⟩
        exact absurd (List.isPrefixOf_iff_prefix.mpr (by simpa using hp)) h
  | cons c t ih =>
    simp only [firstIdx]
    by_cases h : pat.isPrefixOf (c :: t)
    · simp only [if_pos h, Option.some.injEq]
      constructor
      · rintro rfl
        exact ⟨by simpa using List.isPrefixOf_iff_prefix.mp h,
               fun m hm => absurd hm (Nat.not_lt_zero m)⟩
      · rintro ⟨hp, hmin⟩
        by_contra hne
        exact hmin 0 (Nat.pos_of_ne_zero (fun h0 => hne (h0 ▸ rfl)))
          (by simpa using List.isPrefixOf_iff_prefix.mp h)
    · simp only [if_neg h]
      constructor
      · intro hmap
        rcases Option.map_eq_some'.mp hmap with ⟨i, hi, rfl⟩
        rcases ih.mp hi with ⟨hp, hmin⟩
        refine ⟨by simpa using hp, ?_⟩
        intro m hm
        match m with
        | 0 =>
          intro hp0
          exact h (List.isPrefixOf_iff_prefix.mpr (by simpa using hp0))
        | Nat.succ m' =>
          intro hpm
          exact hmin m' (Nat.lt_of_succ_lt_succ hm) (by simpa using hpm)
      · rintro ⟨hp, hmin⟩
        match n with
        | 0 =>
          exact absurd (List.isPrefixOf_iff_prefix.mpr (by simpa using hp)) h
        | Nat.succ n' =>
          have : firstIdx pat t = some n' := by
            refine ih.mpr ⟨by simpa using hp, ?_⟩
            intro m hm hpm
            exact hmin (m + 1) (Nat.succ_lt_succ hm) (by simpa using hpm)
          simp [this]

theorem lastIdx_eq_none {pat s : List Char} (hpat : pat ≠ []) :
    lastIdx pat s = none ↔ ∀ m, ¬ pat <+: s.drop m := by
  induction s with
  | nil =>
    have hnot : ¬ pat.isPrefixOf ([] : List Char) := by
      intro h
      exact hpat (List.prefix_nil.mp (List.isPrefixOf_iff_prefix.mp h))
    simp only [lastIdx, if_neg hnot]
    constructor
    · intro _ m hp
      exact hpat (List.prefix_nil.mp (List.drop_nil ▸ hp))
    · intro _; trivial
  | cons c t ih =>
    simp only [lastIdx]
    cases hlt : lastIdx pat t with
    | some i =>
      constructor
      · intro hfalse; exact absurd hfalse (by simp)
      · intro hall
        exfalso
        have : ∀ m, ¬ pat <+: t.drop m := fun m hp => hall (m + 1) (by simpa using hp)
        rw [ih.mpr this] at hlt
        exact absurd hlt (by simp)
    | none =>
      by_cases h : pat.isPrefixOf (c :: t)
      · simp only [if_pos h]
        constructor
        · intro hfalse; exact absurd hfalse (by simp)
        · intro hall
          exact absurd (List.isPrefixOf_iff_prefix.mp h) (by simpa using hall 0)
      · simp only [if_neg h]
        constructor
        · intro _ m
          match m with
          | 0 =>
            intro hp
            exact h (List.isPrefixOf_iff_prefix.mpr (by simpa using hp))
          | Nat.succ m' =>
            intro hp
            exact (ih.mp hlt) m' (by simpa using hp)
        · intro _; trivial

theorem lastIdx_eq_some {pat s : List Char} (hpat : pat ≠ []) {n : Nat} :
    lastIdx pat s = some n ↔
      (pat <+: s.drop n ∧ ∀ m, n < m → ¬ pat <+: s.drop m) := by
  induction s generalizing n with
  | nil =>
    have hnot : ¬ pat.isPrefixOf ([] : List Char) := by
      intro h
      exact hpat (List.prefix_nil.mp (List.isPrefixOf_iff_prefix.mp h))
    simp only [lastIdx, if_neg hnot]
    constructor
    · intro hfalse; exact absurd hfalse (by simp)
    · rintro ⟨hp, -⟩
      exact absurd (List.drop_nil ▸ hp) (fun hh => hpat (List.prefix_nil.mp hh))
  | cons c t ih =>
    simp only [lastIdx]
    cases hlt : lastIdx pat t with
    | some i =>
      simp only [Option.some.injEq]
      rcases (ih (n := i)).mp hlt with ⟨hp, hmax⟩
      constructor
      · rintro rfl
        refine ⟨by simpa using hp, ?_⟩
        intro m hm
        match m with
        | 0 => exact absurd hm (Nat.not_lt_zero _)
        | Nat.succ m' =>
          intro hpm
          exact hmax m' (Nat.lt_of_succ_lt_succ hm) (by simpa using hpm)
      · rintro ⟨hpn, hmaxn⟩
        match n with
        | 0 =>
          exfalso
          exact hmaxn (i + 1) (Nat.succ_pos i) (by simpa using hp)
        | Nat.succ n' =>
          have hres : lastIdx pat t = some n' := by
            refine (ih (n := n')).mpr ⟨by simpa using hpn, ?_⟩
            intro m hm hpm
            exact hmaxn (m + 1) (Nat.succ_lt_succ hm) (by simpa using hpm)
          have := hlt ▸ hres
          simp only [Option.some.injEq] at this
          simp [this]
    | none =>
      have hnone : ∀ m, ¬ pat <+: t.drop m := (lastIdx_eq_none hpat).mp hlt
      by_cases h : pat.isPrefixOf (c :: t)
      · simp only [if_pos h, Option.some.injEq]
        constructor
        · rintro rfl
          refine ⟨by simpa using List.isPrefixOf_iff_prefix.mp h, ?_⟩
          intro m hm
          match m with
          | 0 => exact absurd hm (Nat.lt_irrefl 0)
          | Nat.succ m' =>
            intro hpm
            exact hnone m' (by simpa using hpm)
        · rintro ⟨hpn, hmaxn⟩
          match n with
          | 0 => rfl
          | Nat.succ n' =>
            exact absurd (by simpa using hpn) (hnone n')
      · simp only [if_neg h]
        constructor
        · intro hfalse; exact absurd hfalse (by simp)
        · rintro ⟨hpn, hmaxn⟩
          exfalso
          match n with
          | 0 => exact h (List.isPrefixOf_iff_prefix.mpr (by simpa using hpn))
          | Nat.succ n' =>
            exact absurd (by simpa using hpn) (hnone n')

/-! ## Transfer lemmas between a string and its prefixes -/

theorem drop_prefix_drop {P S : List Char} (h : P <+: S) (i : Nat) :
    P.drop i <+: S.drop i := by
  obtain ⟨r, rfl⟩ := h
  rw [List.drop_append_eq_append_drop]
  exact List.prefix_append _ _

theorem occ_transfer {pat P S : List Char} (h : P <+: S) {i : Nat}
    (hp : pat <+: P.drop i) : pat <+: S.drop i :=
  hp.trans (drop_prefix_drop h i)

theorem occ_restrict {pat P S : List Char} (h : P <+: S) {i : Nat}
    (hfit : i + pat.length ≤ P.length) (hp : pat <+: S.drop i) :
    pat <+: P.drop i := by
  refine List.prefix_of_prefix_length_le hp (drop_prefix_drop h i) ?_
  rw [List.length_drop]
  omega

theorem occ_length_le {pat P : List Char} {i : Nat} (hp : pat <+: P.drop i)
    (hpat : pat ≠ []) : i + pat.length ≤ P.length := by
  have := hp.length_le
  rw [List.length_drop] at this
  have hpos : 0 < pat.length := List.length_pos.mpr hpat
  omega

theorem segment_agree {P S : List Char} (h : P <+: S) {i k : Nat}
    (hfit : i + k ≤ P.length) :
    (P.drop i).take k = (S.drop i).take k := by
  obtain ⟨r, rfl⟩ := h
  rw [List.drop_append_eq_append_drop, List.take_append_eq_append_take]
  have h1 : k ≤ (List.drop i P).length := by rw [List.length_drop]; omega
  rw [Nat.sub_eq_zero_of_le h1, List.take_zero, List.append_nil]

/-! ## The textual shim: `extractJSON` (pkg/agent/conversation.go)

Go source:
```
func extractJSON(s string) (string, bool) {
    const jsonBlockMarker = "```json"
    first := strings.Index(s, jsonBlockMarker)
    last := strings.LastIndex(s, "```")
    if first == -1 || last == -1 || first == last {
        return "", false
    }
    data := s[first+len(jsonBlockMarker) : last]
    return data, true
}
```
-/

def jsonBlockMarker : List Char := "```json".data

def fenceMarker : List Char := "```".data

def extractJSONChars (s : List Char) : Option (List Char) :=
  match firstIdx jsonBlockMarker s, lastIdx fenceMarker s with
  | some first, some last =>
    if first = last then none
    else some ((s.drop (first + 7)).take (last - (first + 7)))
  | _, _ => none

/-- Go `extractJSON`, returning `none` for the `false` case. -/
def extractJSON (s : String) : Option String :=
  (extractJSONChars s.data).map (fun l => ⟨l⟩)

theorem jsonBlockMarker_ne_nil : jsonBlockMarker ≠ [] := by decide

theorem fenceMarker_ne_nil : fenceMarker ≠ [] := by decide

theorem fence_prefix_marker : fenceMarker <+: jsonBlockMarker := by decide

/-- Splitting the surrounding string at the marker block: dropping the prefix
and the opening marker exposes `mid ++ fence ++ post`. -/
theorem drop_decomp {pre mid post : List Char} :
    (pre ++ jsonBlockMarker ++ mid ++ fenceMarker ++ post).drop (pre.length + 7) =
      mid ++ fenceMarker ++ post := by
  have h : pre ++ jsonBlockMarker ++ mid ++ fenceMarker ++ post =
      (pre ++ jsonBlockMarker) ++ (mid ++ fenceMarker ++ post) := by
    simp [List.append_assoc]
  rw [h]
  exact List.drop_left' (by simp [jsonBlockMarker])

theorem mid_segment {pre mid post : List Char} :
    ((pre ++ jsonBlockMarker ++ mid ++ fenceMarker ++ post).drop (pre.length + 7)).take
        mid.length = mid := by
  rw [drop_decomp]
  have h : mid ++ fenceMarker ++ post = mid ++ (fenceMarker ++ post) := by
    simp [List.append_assoc]
  rw [h]
  exact List.take_left mid _

/-- When the first ` ```json ` marker sits at the end of `pre` and the last
` ``` ` fence closes the block, `extractJSON` returns exactly the window
between them. -/
theorem extractJSONChars_eq_mid {pre mid post S : List Char}
    (hS : S = pre ++ jsonBlockMarker ++ mid ++ fenceMarker ++ post)
    (hfirst : firstIdx jsonBlockMarker S = some pre.length)
    (hlast : lastIdx fenceMarker S = some (pre.length + 7 + mid.length)) :
    extractJSONChars S = some mid := by
  unfold extractJSONChars
  rw [hfirst, hlast]
  have hne : pre.length ≠ pre.length + 7 + mid.length := by omega
  simp only [if_neg hne, Option.some.injEq]
  have harith : pre.length + 7 + mid.length - (pre.length + 7) = mid.length := by omega
  rw [harith, hS, mid_segment]

/-- Dropping into the marker/window region of the decomposed string exposes a
suffix of `jsonBlockMarker ++ mid ++ fenceMarker` followed by `post`. -/
theorem drop_into_region {pre mid post : List Char} {l : Nat}
    (hge : pre.length ≤ l) (hle : l ≤ pre.length + 7 + mid.length) :
    (pre ++ jsonBlockMarker ++ mid ++ fenceMarker ++ post).drop l =
      (jsonBlockMarker ++ mid ++ fenceMarker).drop (l - pre.length) ++ post := by
  have h : pre ++ jsonBlockMarker ++ mid ++ fenceMarker ++ post =
      (pre ++ (jsonBlockMarker ++ mid ++ fenceMarker)) ++ post := by
    simp [List.append_assoc]
  rw [h, List.drop_append_eq_append_drop, List.drop_append_eq_append_drop]
  have hlen : (pre ++ (jsonBlockMarker ++ mid ++ fenceMarker)).length =
      pre.length + (7 + mid.length + 3) := by
    simp [jsonBlockMarker, fenceMarker]
    omega
  have h0 : l - (pre ++ (jsonBlockMarker ++ mid ++ fenceMarker)).length = 0 := by
    rw [hlen]; omega
  have h1 : pre.drop l = [] := List.drop_eq_nil_of_le hge
  rw [h0, h1, List.drop_zero, List.nil_append]

/-- Key lemma: under the window hypotheses on `S`, any prefix `P` of `S` on
which `extractJSON` succeeds yields exactly the window `mid`.  (The shim
checks `extractJSON` on a growing buffer, so the buffer it finally parses is
such a prefix.) -/
theorem extractJSONChars_prefix_eq_mid {pre mid post S P : List Char}
    (hS : S = pre ++ jsonBlockMarker ++ mid ++ fenceMarker ++ post)
    (hfirst : firstIdx jsonBlockMarker S = some pre.length)
    (hlast : lastIdx fenceMarker S = some (pre.length + 7 + mid.length))
    (hmid : ∀ r, 0 < r → r < 7 + mid.length →
      ¬ fenceMarker <+: (jsonBlockMarker ++ mid ++ fenceMarker).drop r)
    (hP : P <+: S) {d : List Char} (hd : extractJSONChars P = some d) :
    d = mid := by
  unfold extractJSONChars at hd
  cases hf : firstIdx jsonBlockMarker P with
  | none => rw [hf] at hd; cases hl : lastIdx fenceMarker P <;> simp [hl] at hd
  | some f =>
    cases hl : lastIdx fenceMarker P with
    | none => rw [hf, hl] at hd; simp at hd
    | some l =>
      rw [hf, hl] at hd
      by_cases hfl : f = l
      · simp [hfl] at hd
      · simp only [if_neg hfl, Option.some.injEq] at hd
        -- characterize the two indices
        obtain ⟨hfP, hminP⟩ := firstIdx_eq_some.mp hf
        obtain ⟨hlP, hmaxP⟩ := (lastIdx_eq_some fenceMarker_ne_nil).mp hl
        obtain ⟨hfS, hminS⟩ := firstIdx_eq_some.mp hfirst
        obtain ⟨hlS, hmaxS⟩ := (lastIdx_eq_some fenceMarker_ne_nil).mp hlast
        have hmark7 : jsonBlockMarker.length = 7 := by decide
        have hfence3 : fenceMarker.length = 3 := by decide
        -- the first marker in P is the first marker in S
        have hffit : f + 7 ≤ P.length := by
          have := occ_length_le hfP jsonBlockMarker_ne_nil
          omega
        have hfS' : jsonBlockMarker <+: S.drop f := occ_transfer hP hfP
        have hge : pre.length ≤ f := by
          by_contra hlt
          exact hminS f (by omega) hfS'
        have hfeq : f = pre.length := by
          by_contra hne
          have hlt : pre.length < f := by omega
          have hfit2 : pre.length + jsonBlockMarker.length ≤ P.length := by omega
          exact hminP pre.length hlt (occ_restrict hP hfit2 hfS)
        -- the last fence in P is at most the closing fence of S
        have hlfit : l + 3 ≤ P.length := by
          have := occ_length_le hlP fenceMarker_ne_nil
          omega
        have hlS' : fenceMarker <+: S.drop l := occ_transfer hP hlP
        have hlle : l ≤ pre.length + 7 + mid.length := by
          by_contra hgt
          exact hmaxS l (by omega) hlS'
        -- the opening marker itself starts with a fence, so f ≤ l
        have hfenceAtF : fenceMarker <+: P.drop f := fence_prefix_marker.trans hfP
        have hfle : f ≤ l := by
          by_contra hgt
          exact hmaxP f (by omega) hfenceAtF
        have hflt : f < l := by omega
        -- no fence occurs strictly inside the window region
        have hleq : l = pre.length + 7 + mid.length := by
          by_contra hne
          have hlt2 : l < pre.length + 7 + mid.length := by omega
          have hdropS : S.drop l =
              (jsonBlockMarker ++ mid ++ fenceMarker).drop (l - pre.length) ++ post := by
            rw [hS]
            exact drop_into_region (by omega) (by omega)
          rw [hdropS] at hlS'
          have hrlen : 3 ≤ ((jsonBlockMarker ++ mid ++ fenceMarker).drop (l - pre.length)).length := by
            rw [List.length_drop]
            simp only [List.length_append, hmark7, hfence3]
            omega
          have hres : fenceMarker <+: (jsonBlockMarker ++ mid ++ fenceMarker).drop (l - pre.length) := by
            refine List.prefix_of_prefix_length_le hlS' (List.prefix_append _ _) ?_
            rw [hfence3]
            exact hrlen
          exact hmid (l - pre.length) (by omega) (by omega) hres
        -- compute the extracted window
        subst hd
        rw [hfeq, hleq]
        have harith : pre.length + 7 + mid.length - (pre.length + 7) = mid.length := by omega
        rw [harith]
        have hfit3 : pre.length + 7 + mid.length ≤ P.length := by omega
        rw [segment_agree hP (by omega), hS, mid_segment]

/-! ## Go values

Dynamic (`any`-typed) values flowing through argument maps
(`map[string]any`).  Covers the value shapes exercised by the analysed code
paths: strings, integers, booleans, and absent (`nil`).  A `float64` is kept
as its source literal — floating-point arithmetic is outside this model. -/

inductive GoValue where
  | str : String → GoValue
  | int : Int → GoValue
  | float : String → GoValue
  | bool : Bool → GoValue
  | null : GoValue
deriving DecidableEq, Repr

/-! ## Restricted JSON parsing (`encoding/json` as used by the shim)

The shim unmarshals the extracted block into
```
type ReActResponse struct {
    Thought string  `json:"thought"`
    Answer  string  `json:"answer,omitempty"`
    Action  *Action `json:"action,omitempty"`
}
type Action struct {
    Name             string `json:"name"`
    Reason           string `json:"reason"`
    Command          string `json:"command"`
    ModifiesResource string `json:"modifies_resource"`
}
```
The model implements the fragment of JSON these fields exercise: objects
and strings (without escape sequences).  As in Go, unknown object keys are
ignored, a duplicate key's last occurrence wins, interior whitespace is
skipped, and trailing non-whitespace after the top-level value is an
error. -/

inductive JValue where
  | jstr : String → JValue
  | jobj : List (String × JValue) → JValue
deriving Repr

def jsonWsChar (c : Char) : Bool :=
  c = ' ' || c = '\t' || c = '\n' || c = '\r'

def skipWs (l : List Char) : List Char := l.dropWhile jsonWsChar

def parseStringBody : List Char → Option (List Char × List Char)
  | [] => none
  | c :: rest =>
    if c = '"' then some ([], rest)
    else if c = '\\' then none
    else (parseStringBody rest).map (fun p => (c :: p.1, p.2))

mutual

def parseValue : Nat → List Char → Option (JValue × List Char)
  | 0, _ => none
  | Nat.succ fuel, l =>
    match skipWs l with
    | '"' :: rest => (parseStringBody rest).map (fun p => (JValue.jstr ⟨p.1⟩, p.2))
    | '{' :: rest =>
      match skipWs rest with
      | '}' :: rest2 => some (JValue.jobj [], rest2)
      | rest2 => (parseMembers fuel rest2).map (fun p => (JValue.jobj p.1, p.2))
    | _ => none

def parseMembers : Nat → List Char → Option (List (String × JValue) × List Char)
  | 0, _ => none
  | Nat.succ fuel, l =>
    match l with
    | '"' :: rest =>
      match parseStringBody rest with
      | none => none
      | some (key, r1) =>
        match skipWs r1 with
        | ':' :: r2 =>
          match parseValue fuel r2 with
          | none => none
          | some (v, r3) =>
            match skipWs r3 with
            | ',' :: r4 => (parseMembers fuel (skipWs r4)).map
                (fun p => ((⟨key⟩, v) :: p.1, p.2))
            | '}' :: r4 => some ([(⟨key⟩, v)], r4)
            | _ => none
        | _ => none
    | _ => none

end

def parseJSON (s : List Char) : Option JValue :=
  match parseValue (s.length + 2) s with
  | some (v, rest) => if skipWs rest = [] then some v else none
  | none => none

structure GoAction where
  name : String
  reason : String
  command : String
  modifies_resource : String
deriving DecidableEq, Repr

structure ReActResponse where
  thought : String
  answer : String
  action : Option GoAction
deriving DecidableEq, Repr

def actionOfMembers : List (String × JValue) → GoAction → Option GoAction
  | [], a => some a
  | (k, v) :: rest, a =>
    if k = "name" then
      match v with
      | .jstr s => actionOfMembers rest { a with name := s }
      | _ => none
    else if k = "reason" then
      match v with
      | .jstr s => actionOfMembers rest { a with reason := s }
      | _ => none
    else if k = "command" then
      match v with
      | .jstr s => actionOfMembers rest { a with command := s }
      | _ => none
    else if k = "modifies_resource" then
      match v with
      | .jstr s => actionOfMembers rest { a with modifies_resource := s }
      | _ => none
    else actionOfMembers rest a

def reactOfMembers : List (String × JValue) → ReActResponse → Option ReActResponse
  | [], r => some r
  | (k, v) :: rest, r =>
    if k = "thought" then
      match v with
      | .jstr s => reactOfMembers rest { r with thought := s }
      | _ => none
    else if k = "answer" then
      match v with
      | .jstr s => reactOfMembers rest { r with answer := s }
      | _ => none
    else if k = "action" then
      match v with
      | .jobj ms =>
        (actionOfMembers ms ⟨"", "", "", ""⟩).bind
          (fun a => reactOfMembers rest { r with action := some a })
      | _ => none
    else reactOfMembers rest r

/-- `json.Unmarshal([]byte(s), &reActResp)` on the JSON fragment above. -/
def jsonUnmarshalReAct (s : String) : Option ReActResponse :=
  match parseJSON s.data with
  | some (JValue.jobj ms) => reactOfMembers ms ⟨"", "", none⟩
  | _ => none

/-! ## `parseReActResponse` (pkg/agent/conversation.go) -/

/-- Go `strings.ReplaceAll(s, "\n", "")`. -/
def removeNewlines (s : String) : String := ⟨s.data.filter (fun c => c ≠ '\n')⟩

/-- `unicode.IsSpace`, as used by `strings.TrimSpace`. -/
def goIsSpace (c : Char) : Bool :=
  c = ' ' || c = '\t' || c = '\n' || c = Char.ofNat 0x0B || c = Char.ofNat 0x0C || c = '\r' ||
  c = Char.ofNat 0x85 || c = Char.ofNat 0xA0 || c = Char.ofNat 0x1680 ||
  (Char.ofNat 0x2000 ≤ c && c ≤ Char.ofNat 0x200A) ||
  c = Char.ofNat 0x2028 || c = Char.ofNat 0x2029 || c = Char.ofNat 0x202F ||
  c = Char.ofNat 0x205F || c = Char.ofNat 0x3000

/-- Go `strings.TrimSpace`. -/
def goTrimSpace (s : String) : String :=
  ⟨((s.data.dropWhile goIsSpace).reverse.dropWhile goIsSpace).reverse⟩

/-- The tail of `parseReActResponse` after `extractJSON` succeeded: strip
newlines, trim whitespace, unmarshal. -/
def reActFromWindow (window : String) : Except String ReActResponse :=
  let cleaned := goTrimSpace (removeNewlines window)
  match jsonUnmarshalReAct cleaned with
  | some r => Except.ok r
  | none => Except.error ("parsing JSON " ++ cleaned)

/-- Go `parseReActResponse` (conversation.go): extract the fenced block,
clean it, unmarshal it. -/
def parseReActResponse (input : String) : Except String ReActResponse :=
  match extractJSON input with
  | none => Except.error "no JSON code block found"
  | some w => reActFromWindow w

/-! ## Shim candidate synthesis (`ShimResponse`/`ShimCandidate`/`ShimPart`) -/

structure FunctionCall where
  name : String
  arguments : List (String × GoValue)
deriving DecidableEq, Repr

inductive ShimPart where
  | textPart (text : String)
  | actionPart (action : GoAction)
deriving DecidableEq, Repr

/-- `toMap` of an `Action` value: marshalling the struct to JSON and back
produces a map with the four tag-named keys, all string-valued. -/
def actionToMap (a : GoAction) : List (String × GoValue) :=
  [("name", GoValue.str a.name), ("reason", GoValue.str a.reason),
   ("command", GoValue.str a.command),
   ("modifies_resource", GoValue.str a.modifies_resource)]

/-- `ShimPart.AsFunctionCalls`: an action part becomes one synthetic call;
its argument map is the action's field map with the `name` key deleted
(`delete(functionCallArgs, "name")` — passed separately). -/
def ShimPart.asFunctionCalls : ShimPart → Option (List FunctionCall)
  | .actionPart a =>
    some [⟨a.name, (actionToMap a).filter (fun kv => kv.1 ≠ "name")⟩]
  | .textPart _ => none

/-- `ShimCandidate.Parts`: thought and answer (when non-empty) become text
parts; a present action becomes an action part. -/
def shimCandidateParts (r : ReActResponse) : List ShimPart :=
  (if r.thought ≠ "" then [ShimPart.textPart r.thought] else []) ++
  (if r.answer ≠ "" then [ShimPart.textPart r.answer] else []) ++
  (match r.action with
   | some a => [ShimPart.actionPart a]
   | none => [])

/-- The function calls `RunOneRound` accumulates from a shim candidate's
parts (`part.AsFunctionCalls` collected over `candidate.Parts()`). -/
def responseFunctionCalls (r : ReActResponse) : List FunctionCall :=
  (shimCandidateParts r).foldl
    (fun acc p =>
      match p.asFunctionCalls with
      | some calls => acc ++ calls
      | none => acc) []

/-! ## `candidateToShimCandidate` (pkg/agent/conversation.go)

The streamed model responses are given as the sequence of their text
fragments (each response carrying one text part; a non-text part or a
response without candidates is an error in Go and outside the behaviour
quantified by the claims).  The Go code accumulates fragments into `buffer`
and stops consuming the stream as soon as `extractJSON(buffer)` reports a
complete fenced block; at the end of the stream an empty buffer yields the
null terminal response, and a non-empty buffer is parsed, a parse failure
becoming a stream error. -/

def shimBuffer : String → List String → String
  | buf, [] => buf
  | buf, f :: rest =>
    let buf2 := buf ++ f
    if (extractJSON buf2).isSome then buf2 else shimBuffer buf2 rest

inductive ShimOutcome where
  | nullResult
  | response (r : ReActResponse)
  | errorResult (msg : String)
deriving DecidableEq, Repr

def candidateToShimCandidate (frags : List String) : ShimOutcome :=
  let buffer := shimBuffer "" frags
  if buffer = "" then ShimOutcome.nullResult
  else
    match parseReActResponse buffer with
    | Except.ok r => ShimOutcome.response r
    | Except.error e => ShimOutcome.errorResult ("parsing ReAct response: " ++ e)

/-! ## The concrete action block of the shim-parsing claim -/

/-- The JSON object of the claim's fenced block. -/
def actionJSON : String :=
  "\x7b\"thought\":\"t\",\"action\":\x7b\"name\":\"foo\",\"reason\":\"r\",\"command\":\"c\",\"modifies_resource\":\"no\"\x7d\x7d"

/-- The `ReActResponse` the claim's block unmarshals to. -/
def actionResponse : ReActResponse :=
  ⟨"t", "", some ⟨"foo", "r", "c", "no"⟩⟩

/-- The synthetic function call the claim expects. -/
def fooCall : FunctionCall :=
  ⟨"foo", [("reason", GoValue.str "r"), ("command", GoValue.str "c"),
           ("modifies_resource", GoValue.str "no")]⟩

/-! ## Behaviour of the shim's buffer accumulation -/

/-- The concatenation of the streamed text fragments. -/
def sjoin : List String → String
  | [] => ""
  | f :: rest => f ++ sjoin rest

theorem sjoin_take_drop (l : List String) (k : Nat) :
    sjoin l = sjoin (l.take k) ++ sjoin (l.drop k) := by
  induction l generalizing k with
  | nil => simp [sjoin]
  | cons f rest ih =>
    match k with
    | 0 => simp [sjoin]
    | Nat.succ k' =>
      simp only [List.take_succ_cons, List.drop_succ_cons, sjoin]
      rw [ih k', String.append_assoc]

theorem sjoin_take_leading (l : List String) (k : Nat) :
    (sjoin (l.take k)).data <+: (sjoin l).data := by
  rw [sjoin_take_drop l k, String.data_append]
  exact List.prefix_append _ _

/-- The final buffer of the shim's accumulation loop: it is the join of a
prefix of the fragment sequence, and either `extractJSON` succeeds on it or
it is the whole stream. -/
theorem shimBuffer_spec (frags : List String) (buf : String) :
    ∃ k, shimBuffer buf frags = buf ++ sjoin (frags.take k) ∧
      ((extractJSON (shimBuffer buf frags)).isSome ∨
        shimBuffer buf frags = buf ++ sjoin frags) := by
  induction frags generalizing buf with
  | nil =>
    exact ⟨0, by simp [shimBuffer, sjoin], Or.inr (by simp [shimBuffer, sjoin])⟩
  | cons f rest ih =>
    by_cases hfound : (extractJSON (buf ++ f)).isSome
    · refine ⟨1, ?_, ?_⟩
      · simp [shimBuffer, hfound, sjoin]
      · left
        simp [shimBuffer, hfound]
    · obtain ⟨k', hk', hdisj⟩ := ih (buf ++ f)
      refine ⟨k' + 1, ?_, ?_⟩
      · simp only [shimBuffer, if_neg hfound, List.take_succ_cons, sjoin]
        rw [hk', String.append_assoc]
      · rcases hdisj with h | h
        · left
          simpa [shimBuffer, if_neg hfound] using h
        · right
          simp only [shimBuffer, if_neg hfound, sjoin]
          rw [h, String.append_assoc]

/-- The interior of the claim's fenced block contains no fence occurrence
other than its closing fence (checked positionally over the concrete
block). -/
theorem actionBody_no_inner_fence :
    ∀ r, r < 7 + ("\n" ++ actionJSON ++ "\n").data.length → 0 < r →
      ¬ fenceMarker <+:
        (jsonBlockMarker ++ ("\n" ++ actionJSON ++ "\n").data ++ fenceMarker).drop r := by
  decide

/-- Cleaning the claim's window and unmarshalling it yields the expected
response. -/
theorem reActFromWindow_action :
    reActFromWindow ("\n" ++ actionJSON ++ "\n") = Except.ok actionResponse := by
  rfl

theorem extractJSON_empty : extractJSON "" = none := by decide

/-- Core of the shim-parsing claim: if the streamed fragments join to a text
whose unique fenced block (first ` ```json ` marker, last ` ``` ` fence)
holds the claim's action JSON, the shim produces the parsed response. -/
theorem shim_parses_action_block (frags : List String) (pre post : String)
    (hS : sjoin frags = pre ++ "```json" ++ ("\n" ++ actionJSON ++ "\n") ++ "```" ++ post)
    (hfirst : firstIdx jsonBlockMarker (sjoin frags).data = some pre.data.length)
    (hlast : lastIdx fenceMarker (sjoin frags).data =
      some (pre.data.length + 7 + ("\n" ++ actionJSON ++ "\n").data.length)) :
    candidateToShimCandidate frags = ShimOutcome.response actionResponse := by
  have hSdata : (sjoin frags).data =
      pre.data ++ jsonBlockMarker ++ ("\n" ++ actionJSON ++ "\n").data ++
        fenceMarker ++ post.data := by
    rw [hS]
    simp only [String.data_append]
    rfl
  have hmid : ∀ r, 0 < r → r < 7 + ("\n" ++ actionJSON ++ "\n").data.length →
      ¬ fenceMarker <+:
        (jsonBlockMarker ++ ("\n" ++ actionJSON ++ "\n").data ++ fenceMarker).drop r :=
    fun r h1 h2 => actionBody_no_inner_fence r h2 h1
  obtain ⟨k, hbuf, hdisj⟩ := shimBuffer_spec frags ""
  rw [String.empty_append] at hbuf
  have hextract : extractJSON (shimBuffer "" frags) = some ("\n" ++ actionJSON ++ "\n") := by
    rcases hdisj with hsome | hall
    · obtain ⟨w, hw⟩ := Option.isSome_iff_exists.mp hsome
      obtain ⟨d, hd, hwd⟩ := Option.map_eq_some'.mp hw
      have hP : (shimBuffer "" frags).data <+: (sjoin frags).data := by
        rw [hbuf]
        exact sjoin_take_leading _ _
      have hdm := extractJSONChars_prefix_eq_mid hSdata hfirst hlast hmid hP hd
      rw [hw, ← hwd, hdm]
    · rw [String.empty_append] at hall
      rw [hall]
      unfold extractJSON
      rw [extractJSONChars_eq_mid hSdata hfirst hlast]
      rfl
  have hBne : shimBuffer "" frags ≠ "" := by
    intro h
    rw [h, extractJSON_empty] at hextract
    exact absurd hextract (by simp)
  unfold candidateToShimCandidate
  rw [if_neg hBne]
  unfold parseReActResponse
  simp only [hextract, reActFromWindow_action]

/-- An all-empty stream leaves the shim buffer empty. -/
theorem shimBuffer_all_empty (frags : List String) (buf : String)
    (h : ∀ f ∈ frags, f = "") : shimBuffer buf frags = buf := by
  induction frags generalizing buf with
  | nil => rfl
  | cons f rest ih =>
    have hf : f = "" := h f (List.mem_cons_self f rest)
    have hb : buf ++ f = buf := by rw [hf, String.append_empty]
    by_cases hfound : (extractJSON (buf ++ f)).isSome
    · simp only [shimBuffer, if_pos hfound]
      exact hb
    · simp only [shimBuffer, if_neg hfound]
      rw [hb]
      exact ih buf (fun g hg => h g (List.mem_cons_of_mem f hg))

theorem sjoin_eq_empty {frags : List String} (h : sjoin frags = "") :
    ∀ f ∈ frags, f = "" := by
  induction frags with
  | nil => intro f hf; cases hf
  | cons g rest ih =>
    intro f hf
    have hdata : g.data ++ (sjoin rest).data = [] := by
      have := congrArg String.data h
      rwa [sjoin, String.data_append] at this
    obtain ⟨hg, hrest⟩ := List.append_eq_nil.mp hdata
    rcases hf with _ | hf'
    · exact String.ext hg
    · exact ih (String.ext hrest) f (by assumption)

/-- `extractJSON` fails on any string that contains no ` ``` ` fence. -/
theorem extractJSON_eq_none_of_no_fence {s : String}
    (h : ¬ fenceMarker <:+: s.data) : extractJSON s = none := by
  unfold extractJSON extractJSONChars
  cases hl : lastIdx fenceMarker s.data with
  | some l =>
    exfalso
    obtain ⟨hp, -⟩ := (lastIdx_eq_some fenceMarker_ne_nil).mp hl
    obtain ⟨u, hu⟩ := hp
    refine h ⟨s.data.take l, u, ?_⟩
    rw [List.append_assoc, hu]
    exact List.take_append_drop l s.data
  | none =>
    cases firstIdx jsonBlockMarker s.data <;> rfl

/-- With an all-empty (or fragment-free) stream the shim yields the null
terminal response. -/
theorem shim_null_of_empty (frags : List String) (h : sjoin frags = "") :
    candidateToShimCandidate frags = ShimOutcome.nullResult := by
  have hb := shimBuffer_all_empty frags "" (sjoin_eq_empty h)
  unfold candidateToShimCandidate
  rw [hb]
  rfl

/-- With accumulated text but no fence anywhere in the stream, the shim
yields a parse **error**, not the null response. -/
theorem shim_error_of_no_fence (frags : List String)
    (hnf : ¬ fenceMarker <:+: (sjoin frags).data) (hne : sjoin frags ≠ "") :
    candidateToShimCandidate frags =
      ShimOutcome.errorResult "parsing ReAct response: no JSON code block found" := by
  obtain ⟨k, hbuf, hdisj⟩ := shimBuffer_spec frags ""
  rw [String.empty_append] at hbuf
  have hall : shimBuffer "" frags = sjoin frags := by
    rcases hdisj with hsome | h
    · exfalso
      have hP : (shimBuffer "" frags).data <+: (sjoin frags).data := by
        rw [hbuf]
        exact sjoin_take_leading _ _
      have hnfB : ¬ fenceMarker <:+: (shimBuffer "" frags).data :=
        fun hin => hnf (hin.trans hP.isInfix)
      rw [extractJSON_eq_none_of_no_fence hnfB] at hsome
      exact absurd hsome (by simp)
    · rwa [String.empty_append] at h
  unfold candidateToShimCandidate
  rw [hall, if_neg hne]
  unfold parseReActResponse
  rw [extractJSON_eq_none_of_no_fence hnf]
  rfl

/-! ## The window the spec's words describe (for the truncation claim)

The spec claims the parsed window runs from the first opening marker to the
*first* distinct closing marker after it.  `specFirstWindow` is modelled
from those words (it is **not** in the source; the source uses
`strings.LastIndex`), for comparison with `extractJSON`. -/

def specFirstWindow (s : String) : Option String :=
  match firstIdx jsonBlockMarker s.data with
  | none => none
  | some first =>
    match firstIdx fenceMarker (s.data.drop (first + 7)) with
    | none => none
    | some j => some ⟨(s.data.drop (first + 7)).take j⟩

/-- Input with two fenced blocks: ` ```json{}``` ` followed by a bare
` ``` ` fence. -/
def twoFenceInput : String := "```json\x7b\x7d``` ```"

/-! ## Claim C1 -/

/-- Claim C1, **corrected**.  (1) For every fragment sequence whose
concatenation carries the claim's action block as its unique fenced window
(first ` ```json ` marker at the end of `pre`, last ` ``` ` fence closing
the block), the shim yields the parsed response, whose parts produce
exactly one synthetic call named `foo` with argument keys `reason`,
`command`, `modifies_resource` and no `name` key (`fooCall` lists them
verbatim).  (2) When no closing fence appears **and no text accumulates**,
the shim yields the null result.  (3) Amendment forced by the
counterexample: when text accumulates but no fence ever appears, the shim
yields a parse error, not the claimed null result. -/
theorem shim_single_block_roundtrip :
    (∀ frags pre post,
      sjoin frags = pre ++ "```json" ++ ("\n" ++ actionJSON ++ "\n") ++ "```" ++ post →
      firstIdx jsonBlockMarker (sjoin frags).data = some pre.data.length →
      lastIdx fenceMarker (sjoin frags).data =
        some (pre.data.length + 7 + ("\n" ++ actionJSON ++ "\n").data.length) →
      candidateToShimCandidate frags = ShimOutcome.response actionResponse ∧
        responseFunctionCalls actionResponse = [fooCall]) ∧
    (∀ frags, sjoin frags = "" →
      candidateToShimCandidate frags = ShimOutcome.nullResult) ∧
    (∀ frags, ¬ fenceMarker <:+: (sjoin frags).data → sjoin frags ≠ "" →
      candidateToShimCandidate frags =
        ShimOutcome.errorResult "parsing ReAct response: no JSON code block found") := by
  refine ⟨?_, shim_null_of_empty, shim_error_of_no_fence⟩
  intro frags pre post hS hfirst hlast
  exact ⟨shim_parses_action_block frags pre post hS hfirst hlast, by decide⟩

/-- Concrete counterexample to claim C1 as stated: the stream `["hello"]`
never produces a closing fence, yet the shim yields an **error**, not the
claimed null result. -/
theorem shim_no_fence_yields_error_counterexample :
    candidateToShimCandidate ["hello"] =
        ShimOutcome.errorResult "parsing ReAct response: no JSON code block found" ∧
      candidateToShimCandidate ["hello"] ≠ ShimOutcome.nullResult := by
  decide

/-- Witness for `shim_single_block_roundtrip` at a concrete stream. -/
theorem shim_single_block_roundtrip_witness :
    candidateToShimCandidate
        ["I think\n```json\n" ++ actionJSON, "\n``` tail"] =
          ShimOutcome.response actionResponse ∧
      responseFunctionCalls actionResponse = [fooCall] ∧
      candidateToShimCandidate [""] = ShimOutcome.nullResult ∧
      candidateToShimCandidate ["hi"] =
        ShimOutcome.errorResult "parsing ReAct response: no JSON code block found" :=
  ⟨(shim_single_block_roundtrip.1 ["I think\n```json\n" ++ actionJSON, "\n``` tail"]
      "I think\n" " tail" (by decide) (by decide) (by decide)).1,
   (shim_single_block_roundtrip.1 ["I think\n```json\n" ++ actionJSON, "\n``` tail"]
      "I think\n" " tail" (by decide) (by decide) (by decide)).2,
   shim_single_block_roundtrip.2.1 [""] (by decide),
   shim_single_block_roundtrip.2.2 ["hi"] (by decide) (by decide)⟩

/-! ## Claim C2 -/

/-- Claim C2, **corrected**: the parsed window runs from the first
` ```json ` marker to the **last** ` ``` ` fence of the whole accumulated
text (not the first closing marker after the opening, as claimed): text
before the opening marker and after the last fence is discarded, and the
parsing step consumes exactly that window. -/
theorem extractJSON_window_is_first_marker_to_last_fence
    (pre mid post S : String)
    (hS : S = pre ++ "```json" ++ mid ++ "```" ++ post)
    (hfirst : firstIdx jsonBlockMarker S.data = some pre.data.length)
    (hlast : lastIdx fenceMarker S.data =
      some (pre.data.length + 7 + mid.data.length)) :
    extractJSON S = some mid ∧ parseReActResponse S = reActFromWindow mid := by
  have hSdata : S.data =
      pre.data ++ jsonBlockMarker ++ mid.data ++ fenceMarker ++ post.data := by
    rw [hS]
    simp only [String.data_append]
    rfl
  have hchars : extractJSONChars S.data = some mid.data :=
    extractJSONChars_eq_mid hSdata hfirst hlast
  have hstr : extractJSON S = some mid := by
    unfold extractJSON
    rw [hchars]
    rfl
  refine ⟨hstr, ?_⟩
  unfold parseReActResponse
  rw [hstr]

/-- Concrete counterexample to claim C2 as stated: with two fenced blocks
the code's window spans from the first opening marker to the very last
fence (crossing the first block's closing fence), not the first qualifying
window described by the spec. -/
theorem extractJSON_not_first_window_counterexample :
    extractJSON twoFenceInput = some "\x7b\x7d``` " ∧
      specFirstWindow twoFenceInput = some "\x7b\x7d" ∧
      extractJSON twoFenceInput ≠ specFirstWindow twoFenceInput := by
  decide

/-- Witness for `extractJSON_window_is_first_marker_to_last_fence`: the
window may even contain an entire additional fenced block, which is then
part of the parsed text rather than ignored. -/
theorem extractJSON_window_witness :
    extractJSON ("a```json" ++ "\nX\n``` b ```json\nY\n" ++ "```c") =
        some "\nX\n``` b ```json\nY\n" ∧
      parseReActResponse ("a```json" ++ "\nX\n``` b ```json\nY\n" ++ "```c") =
        reActFromWindow "\nX\n``` b ```json\nY\n" :=
  extractJSON_window_is_first_marker_to_last_fence "a" "\nX\n``` b ```json\nY\n" "c"
    ("a```json" ++ "\nX\n``` b ```json\nY\n" ++ "```c")
    (by decide) (by decide) (by decide)

/-! ## The bounded agentic loop `Conversation.RunOneRound`
(pkg/agent/conversation.go)

The loop is driven by the model stream and the user's confirmation
answers, abstracted into a `RoundEnv`:

* `turns i` — the function calls accumulated from the streamed parts of
  iteration `i` (native path) or synthesized by the shim;
* `streamErr i` — a stream-level error surfaced while reading iteration
  `i`'s response (also covers the fatal zero-candidate case);
* `resolveOk c` — whether `Tools.ParseToolInvocation` succeeds for `c`;
* `execOk c` — whether `toolCall.InvokeTool` succeeds for `c`;
* `choice i j` — the confirmation answer for call `j` of iteration `i`
  (`Wait()` returning a selection, or `io.EOF`).

The trace records the loop result, the number of `SendStreaming` requests
issued, the final `SkipPermissions` flag (a field of `Conversation`, so it
persists into later rounds), and which calls showed the three-way
confirmation prompt. -/

inductive Choice where
  | sel (s : String)
  | eofInput
deriving DecidableEq, Repr

structure RoundEnv where
  turns : Nat → List FunctionCall
  streamErr : Nat → Option String
  resolveOk : FunctionCall → Bool
  execOk : FunctionCall → Bool
  choice : Nat → Nat → Choice

/-- Go map lookup `args["modifies_resource"]` (`none` = key absent = nil). -/
def lookupArg (args : List (String × GoValue)) (k : String) : Option GoValue :=
  (args.find? (fun kv => kv.1 = k)).map (fun kv => kv.2)

inductive CallsOutcome where
  | done
  | eofEnd
  | fatal (msg : String)
deriving DecidableEq, Repr

structure CallsTrace where
  outcome : CallsOutcome
  skipPermissions : Bool
  prompted : List Nat
deriving DecidableEq, Repr

/-- Sequential dispatch of one turn's accumulated function calls
(conversation.go, the `for _, call := range functionCalls` body):
resolution failure is fatal; the three-way prompt fires iff
`!a.SkipPermissions && call.Arguments["modifies_resource"] != "no"`;
choice 1 proceeds, choice 2 sets `SkipPermissions` and proceeds, choice 3
skips execution, `io.EOF` ends the round successfully, anything else is
fatal; a tool execution error aborts the round. -/
def processCalls (env : RoundEnv) (iter : Nat) :
    Nat → Bool → List FunctionCall → CallsTrace
  | _, skipPerm, [] => ⟨CallsOutcome.done, skipPerm, []⟩
  | j, skipPerm, c :: rest =>
    if env.resolveOk c = false then ⟨CallsOutcome.fatal "building tool call", skipPerm, []⟩
    else if skipPerm = false ∧
        lookupArg c.arguments "modifies_resource" ≠ some (GoValue.str "no") then
      match env.choice iter j with
      | Choice.eofInput => ⟨CallsOutcome.eofEnd, skipPerm, [j]⟩
      | Choice.sel s =>
        if s = "1" then
          if env.execOk c then
            let t := processCalls env iter (j + 1) skipPerm rest
            ⟨t.outcome, t.skipPermissions, j :: t.prompted⟩
          else ⟨CallsOutcome.fatal "executing action", skipPerm, [j]⟩
        else if s = "2" then
          if env.execOk c then
            let t := processCalls env iter (j + 1) true rest
            ⟨t.outcome, t.skipPermissions, j :: t.prompted⟩
          else ⟨CallsOutcome.fatal "executing action", true, [j]⟩
        else if s = "3" then
          let t := processCalls env iter (j + 1) skipPerm rest
          ⟨t.outcome, t.skipPermissions, j :: t.prompted⟩
        else ⟨CallsOutcome.fatal "invalid confirmation choice", skipPerm, [j]⟩
    else
      if env.execOk c then processCalls env iter (j + 1) skipPerm rest
      else ⟨CallsOutcome.fatal "executing action", skipPerm, []⟩

inductive RoundResult where
  | success
  | maxItersReached
  | roundError (msg : String)
deriving DecidableEq, Repr

structure RoundTrace where
  result : RoundResult
  llmRequests : Nat
  skipPermissions : Bool
  prompts : List (Nat × Nat)
deriving DecidableEq, Repr

/-- The `for currentIteration < maxIterations` loop of `RunOneRound`:
`rem` is the remaining iteration budget.  Each pass issues one
`SendStreaming` request, dispatches the turn's calls, finishes
successfully when the turn produced no calls, and reports
`max iterations reached` when the budget is exhausted. -/
def runLoop (env : RoundEnv) : Nat → Nat → Bool → RoundTrace
  | 0, _, skipPerm => ⟨RoundResult.maxItersReached, 0, skipPerm, []⟩
  | Nat.succ rem, iter, skipPerm =>
    match env.streamErr iter with
    | some e => ⟨RoundResult.roundError e, 1, skipPerm, []⟩
    | none =>
      let calls := env.turns iter
      let t := processCalls env iter 0 skipPerm calls
      match t.outcome with
      | CallsOutcome.fatal m =>
        ⟨RoundResult.roundError m, 1, t.skipPermissions,
          t.prompted.map (fun j => (iter, j))⟩
      | CallsOutcome.eofEnd =>
        ⟨RoundResult.success, 1, t.skipPermissions,
          t.prompted.map (fun j => (iter, j))⟩
      | CallsOutcome.done =>
        if calls.isEmpty then
          ⟨RoundResult.success, 1, t.skipPermissions,
            t.prompted.map (fun j => (iter, j))⟩
        else
          let rest := runLoop env rem (iter + 1) t.skipPermissions
          ⟨rest.result, rest.llmRequests + 1, rest.skipPermissions,
            t.prompted.map (fun j => (iter, j)) ++ rest.prompts⟩

/-- `Conversation.RunOneRound` with iteration budget `MaxIterations` and
the current `SkipPermissions` flag. -/
def runOneRound (env : RoundEnv) (maxIterations : Nat) (skipPerm : Bool) : RoundTrace :=
  runLoop env maxIterations 0 skipPerm

/-- The confirmation answers the prompt recognizes. -/
def goodChoice (c : Choice) : Prop :=
  c = Choice.sel "1" ∨ c = Choice.sel "2" ∨ c = Choice.sel "3"

theorem processCalls_done (env : RoundEnv) (iter : Nat)
    (hres : ∀ c, env.resolveOk c = true)
    (hexec : ∀ c, env.execOk c = true)
    (hch : ∀ i j, goodChoice (env.choice i j)) :
    ∀ calls j skipPerm, (processCalls env iter j skipPerm calls).outcome = CallsOutcome.done := by
  intro calls
  induction calls with
  | nil => intro j skipPerm; rfl
  | cons c rest ih =>
    intro j skipPerm
    unfold processCalls
    rw [hres c]
    simp only [Bool.true_eq_false, if_false]
    by_cases hgate : skipPerm = false ∧
        lookupArg c.arguments "modifies_resource" ≠ some (GoValue.str "no")
    · rw [if_pos hgate]
      rcases hch iter j with h1 | h2 | h3
      · rw [h1]
        simp only [if_pos rfl, hexec c, if_true]
        exact ih (j + 1) skipPerm
      · rw [h2]
        simp only [if_neg (by simp : ¬ ("2" : String) = "1"), if_pos rfl, hexec c, if_true]
        exact ih (j + 1) true
      · rw [h3]
        simp only [if_neg (by simp : ¬ ("3" : String) = "1"),
          if_neg (by simp : ¬ ("3" : String) = "2"), if_pos rfl]
        exact ih (j + 1) skipPerm
    · rw [if_neg hgate]
      rw [hexec c, if_pos rfl]
      exact ih (j + 1) skipPerm

theorem runLoop_exhausts (env : RoundEnv)
    (hs : ∀ i, env.streamErr i = none)
    (ht : ∀ i, env.turns i ≠ [])
    (hres : ∀ c, env.resolveOk c = true)
    (hexec : ∀ c, env.execOk c = true)
    (hch : ∀ i j, goodChoice (env.choice i j)) :
    ∀ rem iter skipPerm, (runLoop env rem iter skipPerm).result = RoundResult.maxItersReached ∧
      (runLoop env rem iter skipPerm).llmRequests = rem := by
  intro rem
  induction rem with
  | zero => intro iter skipPerm; exact ⟨rfl, rfl⟩
  | succ rem ih =>
    intro iter skipPerm
    unfold runLoop
    rw [hs iter]
    simp only
    rw [processCalls_done env iter hres hexec hch]
    have hconv : (env.turns iter).isEmpty = false := by
      cases hcase : env.turns iter with
      | nil => exact absurd hcase (ht iter)
      | cons a l => rfl
    simp only [hconv, Bool.false_eq_true, if_false]
    obtain ⟨h1, h2⟩ := ih (iter + 1) (processCalls env iter 0 skipPerm (env.turns iter)).skipPermissions
    exact ⟨h1, by rw [h2]⟩

/-! ## Claim C3 -/

/-- Claim C3: with `MaxIterations = 3` and a model stream that requests at
least one tool call on every turn (streams clean, calls resolving and
executing, prompts answered with a recognized choice), `RunOneRound`
returns the `max iterations reached` error and issues exactly 3
`SendStreaming` requests — never a 4th. -/
theorem runOneRound_max_iterations (env : RoundEnv) (skipPerm : Bool)
    (hs : ∀ i, env.streamErr i = none)
    (ht : ∀ i, env.turns i ≠ [])
    (hres : ∀ c, env.resolveOk c = true)
    (hexec : ∀ c, env.execOk c = true)
    (hch : ∀ i j, goodChoice (env.choice i j)) :
    (runOneRound env 3 skipPerm).result = RoundResult.maxItersReached ∧
      (runOneRound env 3 skipPerm).llmRequests = 3 :=
  runLoop_exhausts env hs ht hres hexec hch 3 0 skipPerm

/-- A concrete environment: every turn requests one executable call and the
user always confirms with choice 1. -/
def alwaysCallEnv : RoundEnv :=
  ⟨fun _ => [⟨"kubectl", [("modifies_resource", GoValue.str "yes")]⟩],
   fun _ => none, fun _ => true, fun _ => true, fun _ _ => Choice.sel "1"⟩

/-- Witness for `runOneRound_max_iterations`. -/
theorem runOneRound_max_iterations_witness :
    (runOneRound alwaysCallEnv 3 false).result = RoundResult.maxItersReached ∧
      (runOneRound alwaysCallEnv 3 false).llmRequests = 3 :=
  runOneRound_max_iterations alwaysCallEnv false (fun _ => rfl)
    (fun _ h => List.cons_ne_nil _ _ h) (fun _ => rfl) (fun _ => rfl)
    (fun _ _ => Or.inl rfl)

/-! ## Claim C4 -/

/-- With the skip-permissions flag already set, no call of the turn ever
shows a prompt and the flag stays set. -/
theorem processCalls_skipTrue (env : RoundEnv) (iter : Nat) :
    ∀ calls j, (processCalls env iter j true calls).prompted = [] ∧
      (processCalls env iter j true calls).skipPermissions = true := by
  intro calls
  induction calls with
  | nil => intro j; exact ⟨rfl, rfl⟩
  | cons c rest ih =>
    intro j
    unfold processCalls
    by_cases hres : env.resolveOk c = false
    · simp only [if_pos hres]
      constructor <;> trivial
    · simp only [if_neg hres]
      have hgate : ¬ ((true : Bool) = false ∧
          lookupArg c.arguments "modifies_resource" ≠ some (GoValue.str "no")) := by
        rintro ⟨h, -⟩
        exact absurd h (by simp)
      rw [if_neg hgate]
      by_cases hexec : env.execOk c = true
      · rw [hexec, if_pos rfl]
        exact ih (j + 1)
      · rw [if_neg hexec]
        constructor <;> trivial

/-- With the flag set, a whole round (and hence every later round started
with the returned flag) shows no prompt and keeps the flag set. -/
theorem runLoop_skipTrue (env : RoundEnv) :
    ∀ rem iter, (runLoop env rem iter true).prompts = [] ∧
      (runLoop env rem iter true).skipPermissions = true := by
  intro rem
  induction rem with
  | zero => intro iter; exact ⟨rfl, rfl⟩
  | succ rem ih =>
    intro iter
    unfold runLoop
    cases hse : env.streamErr iter with
    | some e => exact ⟨rfl, rfl⟩
    | none =>
      simp only
      obtain ⟨hp, hskip⟩ := processCalls_skipTrue env iter (env.turns iter) 0
      cases hout : (processCalls env iter 0 true (env.turns iter)).outcome with
      | fatal m => simp only [hout, hp, hskip, List.map_nil]; constructor <;> trivial
      | eofEnd => simp only [hout, hp, hskip, List.map_nil]; constructor <;> trivial
      | done =>
        simp only [hout]
        by_cases hemp : (env.turns iter).isEmpty
        · simp only [hemp, if_true, hp, hskip, List.map_nil]
          constructor <;> trivial
        · simp only [hemp, if_false, hp, hskip, List.map_nil, List.nil_append]
          exact ih (iter + 1)

/-- Claim C4: (1) whenever the skip-permissions flag is false, a resolved
call whose `modifies_resource` argument is anything but the string `"no"`
(including an absent key) shows the three-way prompt; (2) answering that
prompt with choice 2 makes it the round's **only** prompt — every
subsequent call of the same round is dispatched with the flag set — and
leaves the flag set at the end of the round; (3) any round started with
the flag set (hence every later round after choice 2) shows no prompt at
all and keeps the flag set. -/
theorem confirmation_gating_and_skip (env : RoundEnv) :
    (∀ iter j c rest, env.resolveOk c = true →
      lookupArg c.arguments "modifies_resource" ≠ some (GoValue.str "no") →
      j ∈ (processCalls env iter j false (c :: rest)).prompted) ∧
    (∀ iter j c rest, env.resolveOk c = true →
      lookupArg c.arguments "modifies_resource" ≠ some (GoValue.str "no") →
      env.choice iter j = Choice.sel "2" →
      (processCalls env iter j false (c :: rest)).prompted = [j] ∧
        (processCalls env iter j false (c :: rest)).skipPermissions = true) ∧
    (∀ rem iter, (runLoop env rem iter true).prompts = [] ∧
      (runLoop env rem iter true).skipPermissions = true) := by
  refine ⟨?_, ?_, runLoop_skipTrue env⟩
  · intro iter j c rest hres hmod
    unfold processCalls
    rw [hres]
    simp only [Bool.true_eq_false, if_false]
    rw [if_pos ⟨by trivial, hmod⟩]
    cases hch : env.choice iter j with
    | eofInput => exact List.mem_singleton_self j
    | sel s =>
      by_cases h1 : s = "1"
      · subst h1
        simp only [if_pos rfl]
        by_cases hexec : env.execOk c = true
        · rw [hexec, if_pos rfl]
          exact List.mem_cons_self _ _
        · rw [if_neg hexec]
          exact List.mem_singleton_self j
      · simp only [if_neg h1]
        by_cases h2 : s = "2"
        · subst h2
          simp only [if_pos rfl]
          by_cases hexec : env.execOk c = true
          · rw [hexec, if_pos rfl]
            exact List.mem_cons_self _ _
          · rw [if_neg hexec]
            exact List.mem_singleton_self j
        · simp only [if_neg h2]
          by_cases h3 : s = "3"
          · subst h3
            simp only [if_pos rfl]
            exact List.mem_cons_self _ _
          · simp only [if_neg h3]
            exact List.mem_singleton_self j
  · intro iter j c rest hres hmod hch
    unfold processCalls
    rw [hres]
    simp only [Bool.true_eq_false, if_false]
    rw [if_pos ⟨by trivial, hmod⟩, hch]
    simp only [if_neg (by simp : ¬ ("2" : String) = "1"), if_pos rfl]
    obtain ⟨hp, hskip⟩ := processCalls_skipTrue env iter rest (j + 1)
    by_cases hexec : env.execOk c = true
    · simp [hexec, hp, hskip]
    · simp [hexec]

/-- Witness for `confirmation_gating_and_skip`: a modifying call prompting
under a "don't ask again" answer. -/
def askAgainEnv : RoundEnv :=
  ⟨fun _ => [⟨"kubectl", [("modifies_resource", GoValue.str "yes")]⟩,
             ⟨"kubectl", [("modifies_resource", GoValue.str "yes")]⟩],
   fun _ => none, fun _ => true, fun _ => true, fun _ _ => Choice.sel "2"⟩

theorem confirmation_gating_and_skip_witness :
    0 ∈ (processCalls askAgainEnv 0 0 false (askAgainEnv.turns 0)).prompted ∧
      (processCalls askAgainEnv 0 0 false (askAgainEnv.turns 0)).prompted = [0] ∧
      (processCalls askAgainEnv 0 0 false (askAgainEnv.turns 0)).skipPermissions = true ∧
      (runLoop askAgainEnv 5 1 true).prompts = [] ∧
      (runLoop askAgainEnv 5 1 true).skipPermissions = true := by
  have h := confirmation_gating_and_skip askAgainEnv
  refine ⟨?_, ?_, ?_, (h.2.2 5 1).1, (h.2.2 5 1).2⟩
  · exact h.1 0 0 ⟨"kubectl", [("modifies_resource", GoValue.str "yes")]⟩
      [⟨"kubectl", [("modifies_resource", GoValue.str "yes")]⟩] rfl (by decide)
  · exact (h.2.1 0 0 ⟨"kubectl", [("modifies_resource", GoValue.str "yes")]⟩
      [⟨"kubectl", [("modifies_resource", GoValue.str "yes")]⟩] rfl (by decide) rfl).1
  · exact (h.2.1 0 0 ⟨"kubectl", [("modifies_resource", GoValue.str "yes")]⟩
      [⟨"kubectl", [("modifies_resource", GoValue.str "yes")]⟩] rfl (by decide) rfl).2

/-! ## `Manager.ConnectAll` (pkg/mcp/manager.go) -/

structure ServerConfig where
  name : String
  command : String
  args : List String
  env : List (String × String)
deriving DecidableEq, Repr

def lookupClient (m : List (String × ServerConfig)) (k : String) : Option ServerConfig :=
  (m.find? (fun kv => kv.1 = k)).map (fun kv => kv.2)

structure ConnectAllTrace where
  clients : List (String × ServerConfig)
  errs : List String
  attempts : Nat
deriving DecidableEq, Repr

/-- `Manager.ConnectAll`: for each configured server, skip it when its name
is already in the live client map; otherwise create a client and connect
(`connectOk` abstracts each server's connection outcome).  A failure is
collected into `errs` (and the loop continues); a success adds the client
to the map.  `attempts` counts the connection attempts made.  The method
returns a non-nil aggregate error exactly when `errs` is non-empty. -/
def connectAll (connectOk : ServerConfig → Bool) :
    List ServerConfig → List (String × ServerConfig) → ConnectAllTrace
  | [], clients => ⟨clients, [], 0⟩
  | s :: rest, clients =>
    if (lookupClient clients s.name).isSome then connectAll connectOk rest clients
    else if connectOk s then
      let t := connectAll connectOk rest (clients ++ [(s.name, s)])
      ⟨t.clients, t.errs, t.attempts + 1⟩
    else
      let t := connectAll connectOk rest clients
      ⟨t.clients, ("connecting to MCP server " ++ s.name) :: t.errs, t.attempts + 1⟩

theorem lookupClient_append_singleton {m : List (String × ServerConfig)}
    {n k : String} {v : ServerConfig}
    (hm : lookupClient m k = none) (hk : k ≠ n) :
    lookupClient (m ++ [(n, v)]) k = none := by
  unfold lookupClient at hm ⊢
  induction m with
  | nil =>
    have hd : decide ((n, v).1 = k) = false := by
      simp only [decide_eq_false_iff_not]
      exact fun h => hk h.symm
    simp [List.find?_cons, hd]
  | cons p rest ih =>
    simp only [List.cons_append, List.find?_cons] at hm ⊢
    cases hp : decide (p.1 = k) with
    | true =>
      rw [hp] at hm
      simp at hm
    | false =>
      simp only [hp] at hm ⊢
      exact ih hm

theorem connectAll_go (connectOk : ServerConfig → Bool) :
    ∀ (servers : List ServerConfig) (clients : List (String × ServerConfig)),
    (servers.map ServerConfig.name).Nodup →
    (∀ s ∈ servers, lookupClient clients s.name = none) →
    (connectAll connectOk servers clients).attempts = servers.length ∧
    (connectAll connectOk servers clients).clients =
      clients ++ (servers.filter connectOk).map (fun s => (s.name, s)) ∧
    ((connectAll connectOk servers clients).errs = [] ↔
      ∀ s ∈ servers, connectOk s = true) := by
  intro servers
  induction servers with
  | nil =>
    intro clients _ _
    refine ⟨rfl, by simp [connectAll], by simp [connectAll]⟩
  | cons s rest ih =>
    intro clients hnodup habsent
    have hs : lookupClient clients s.name = none :=
      habsent s (List.mem_cons_self s rest)
    have hpair : (∀ x ∈ rest, ¬ x.name = s.name) ∧
        (rest.map ServerConfig.name).Nodup := by
      simpa using hnodup
    have hnodup' : (rest.map ServerConfig.name).Nodup := hpair.2
    have hhead : ∀ x ∈ rest, x.name ≠ s.name := fun x hx => hpair.1 x hx
    unfold connectAll
    rw [hs]
    simp only [Option.isSome_none, Bool.false_eq_true, if_false]
    by_cases hok : connectOk s
    · rw [if_pos hok]
      have habsent' : ∀ x ∈ rest, lookupClient (clients ++ [(s.name, s)]) x.name = none := by
        intro x hx
        exact lookupClient_append_singleton (habsent x (List.mem_cons_of_mem s hx))
          (hhead x hx)
      obtain ⟨h1, h2, h3⟩ := ih (clients ++ [(s.name, s)]) hnodup' habsent'
      refine ⟨by simp [h1], ?_, ?_⟩
      · rw [h2]
        simp [List.filter_cons, hok, List.append_assoc]
      · rw [h3]
        constructor
        · intro hall x hx
          rcases hx with _ | hx'
          · exact hok
          · exact hall x (by assumption)
        · intro hall x hx
          exact hall x (List.mem_cons_of_mem s hx)
    · rw [if_neg hok]
      obtain ⟨h1, h2, h3⟩ := ih clients hnodup'
        (fun x hx => habsent x (List.mem_cons_of_mem s hx))
      refine ⟨by simp [h1], ?_, ?_⟩
      · rw [h2]
        have : connectOk s = false := by simpa using hok
        simp [List.filter_cons, this]
      · simp only [List.cons_ne_nil, false_iff]
        intro hall
        exact hok (hall s (List.mem_cons_self s rest))

/-! ## Claim C5 -/

/-- Claim C5: starting from an empty client map, `ConnectAll` over `N`
uniquely-named servers attempts a connection for every entry; afterwards
the live client map holds exactly the entries whose connection succeeded
(so one server's failure never removes or prevents another's connection),
and the aggregate error is non-nil iff at least one connection failed. -/
theorem connectAll_spec (servers : List ServerConfig) (connectOk : ServerConfig → Bool)
    (hnodup : (servers.map ServerConfig.name).Nodup) :
    (connectAll connectOk servers []).attempts = servers.length ∧
    (connectAll connectOk servers []).clients =
      (servers.filter connectOk).map (fun s => (s.name, s)) ∧
    ((connectAll connectOk servers []).errs ≠ [] ↔
      ∃ s ∈ servers, connectOk s = false) := by
  obtain ⟨h1, h2, h3⟩ := connectAll_go connectOk servers [] hnodup (fun _ _ => rfl)
  refine ⟨h1, by simpa using h2, ?_⟩
  rw [ne_eq, h3]
  constructor
  · intro hnot
    simpa using hnot
  · rintro ⟨x, hmem, hfail⟩ hall
    rw [hall x hmem] at hfail
    exact absurd hfail (by simp)

/-- Witness for `connectAll_spec`: three servers, the middle one failing. -/
def demoServers : List ServerConfig :=
  [⟨"alpha", "a-cmd", [], []⟩, ⟨"beta", "b-cmd", [], []⟩, ⟨"gamma", "g-cmd", [], []⟩]

theorem connectAll_spec_witness :
    (connectAll (fun s => s.name ≠ "beta") demoServers []).attempts = 3 ∧
    (connectAll (fun s => s.name ≠ "beta") demoServers []).clients =
      [("alpha", ⟨"alpha", "a-cmd", [], []⟩), ("gamma", ⟨"gamma", "g-cmd", [], []⟩)] ∧
    ((connectAll (fun s => s.name ≠ "beta") demoServers []).errs ≠ [] ↔
      ∃ s ∈ demoServers, (fun s => decide (s.name ≠ "beta")) s = false) := by
  have h := connectAll_spec demoServers (fun s => s.name ≠ "beta") (by decide)
  exact ⟨h.1, by rw [h.2.1]; decide, h.2.2⟩

/-! ## `Client.Connect` (pkg/mcp/client.go)

The client's only connection state is the `client` field (`nil` when
disconnected, one live transport when connected), modelled as an
`Option Nat` transport identity — the `Option` itself encodes "at most one
live transport".  The environment abstracts the outcome of each step:
path/env preparation, transport creation, the `initialize` handshake
(30s timeout), the `ListTools` verification (10s), the `ping` probe (5s)
and the verification retry (10s).  The trace counts the `initialize`
requests (handshakes) and the verification `ListTools` requests issued,
and `cleanup` resets the transport on a failed handshake/verification. -/

structure ClientConn where
  transport : Option Nat
deriving DecidableEq, Repr

structure ConnectEnv where
  prepareOk : Bool
  createOk : Bool
  newTransport : Nat
  initOk : Bool
  listOk1 : Bool
  pingOk : Bool
  listOk2 : Bool

structure ConnectTrace where
  state : ClientConn
  errMsg : Option String
  initializeCalls : Nat
  listToolsCalls : Nat
deriving DecidableEq, Repr

/-- `Client.Connect`: returns nil immediately when already connected;
otherwise prepare → create → initialize → verify (with ping+retry),
cleaning up on a step-3/4 failure. -/
def connect (env : ConnectEnv) (c : ClientConn) : ConnectTrace :=
  if c.transport.isSome then ⟨c, none, 0, 0⟩
  else if env.prepareOk = false then ⟨c, some "preparing environment", 0, 0⟩
  else if env.createOk = false then ⟨c, some "creating MCP client", 0, 0⟩
  else if env.initOk = false then
    ⟨⟨none⟩, some "initializing connection", 1, 0⟩
  else if env.listOk1 then ⟨⟨some env.newTransport⟩, none, 1, 1⟩
  else if env.pingOk = false then
    ⟨⟨none⟩, some "verifying connection: server ping failed", 1, 1⟩
  else if env.listOk2 then ⟨⟨some env.newTransport⟩, none, 1, 2⟩
  else ⟨⟨none⟩, some "verifying connection: ListTools retry failed", 1, 2⟩

/-! ## Claim C6 -/

/-- Claim C6: after a successful `Connect`, a second `Connect` (under any
environment) returns nil immediately, performs no second handshake
(`initialize`) and no verification (`ListTools`), and leaves the client's
single live transport unchanged. -/
theorem connect_idempotent (env0 env1 : ConnectEnv) (c0 : ClientConn)
    (hok : (connect env0 c0).errMsg = none) :
    connect env1 (connect env0 c0).state =
      ⟨(connect env0 c0).state, none, 0, 0⟩ ∧
    ((connect env0 c0).state).transport.isSome := by
  have hsome : ((connect env0 c0).state).transport.isSome := by
    unfold connect at hok ⊢
    by_cases h0 : c0.transport.isSome
    · rw [if_pos h0] at hok ⊢
      exact h0
    · rw [if_neg h0] at hok ⊢
      by_cases h1 : env0.prepareOk = false
      · rw [if_pos h1] at hok
        exact absurd hok (by simp)
      · rw [if_neg h1] at hok ⊢
        by_cases h2 : env0.createOk = false
        · rw [if_pos h2] at hok
          exact absurd hok (by simp)
        · rw [if_neg h2] at hok ⊢
          by_cases h3 : env0.initOk = false
          · rw [if_pos h3] at hok
            exact absurd hok (by simp)
          · rw [if_neg h3] at hok ⊢
            by_cases h4 : env0.listOk1 = true
            · rw [if_pos h4]
              rfl
            · rw [if_neg h4] at hok ⊢
              by_cases h5 : env0.pingOk = false
              · rw [if_pos h5] at hok
                exact absurd hok (by simp)
              · rw [if_neg h5] at hok ⊢
                by_cases h6 : env0.listOk2 = true
                · rw [if_pos h6]
                  rfl
                · rw [if_neg h6] at hok
                  exact absurd hok (by simp)
  refine ⟨?_, hsome⟩
  revert hsome
  generalize (connect env0 c0).state = st
  intro hsome
  unfold connect
  rw [if_pos hsome]

/-- Witness for `connect_idempotent`: a fresh client connecting cleanly,
then reconnecting. -/
def cleanConnectEnv : ConnectEnv := ⟨true, true, 7, true, true, true, true⟩

theorem connect_idempotent_witness :
    connect cleanConnectEnv (connect cleanConnectEnv ⟨none⟩).state =
      ⟨(connect cleanConnectEnv ⟨none⟩).state, none, 0, 0⟩ ∧
    ((connect cleanConnectEnv ⟨none⟩).state).transport.isSome :=
  connect_idempotent cleanConnectEnv cleanConnectEnv ⟨none⟩ (by decide)

/-! ## MCP configuration (pkg/mcp/config.go)

`MCPConfig` is the unmarshalled shape of the config document: the
`servers` list and the legacy map-keyed `mcpServers` field (a JSON map,
modelled as an association list).  `loadConfigDoc` is the
existing-file branch of `LoadConfig` after `json.Unmarshal`: legacy
migration followed by validation.  `saveDocOf` is the document
`Config.Save` writes and a reload would unmarshal: `marshalForSave`
serializes only the `servers` field, so the legacy field comes back
empty.  (JSON's nil-vs-empty distinction for `args`/`env` collapses in
the model's lists; the claim compares `{name, command, args, env}`
tuples, for which the two are identical.) -/

structure MCPConfig where
  servers : List ServerConfig
  mcpServers : List (String × ServerConfig)
deriving DecidableEq, Repr

/-- `Config.NeedsLegacyMigration`:
`len(c.MCPServers) > 0 && len(c.Servers) == 0`. -/
def needsLegacyMigration (c : MCPConfig) : Bool :=
  c.mcpServers.length != 0 && c.servers.length == 0

/-- `Config.MigrateFromLegacy`: move map entries into the list, taking the
map key as the name when the entry has none, then clear the legacy
field. -/
def migrateFromLegacy (c : MCPConfig) : MCPConfig :=
  if needsLegacyMigration c = false then c
  else
    { servers := c.mcpServers.map (fun kv =>
        if kv.2.name = "" then { kv.2 with name := kv.1 } else kv.2),
      mcpServers := [] }

/-- `ValidateServerConfig`. -/
def validateServerConfig (s : ServerConfig) : Option String :=
  if s.name = "" then some "server name cannot be empty"
  else if s.command = "" then some "server command cannot be empty"
  else none

def validateServersAux : List ServerConfig → List String → Option String
  | [], _ => none
  | s :: rest, seen =>
    match validateServerConfig s with
    | some e => some e
    | none =>
      if s.name ∈ seen then some ("duplicate server name: " ++ s.name)
      else validateServersAux rest (s.name :: seen)

/-- `Config.ValidateConfig`: non-empty server list, valid entries, no
duplicate names. -/
def validateConfig (c : MCPConfig) : Option String :=
  if c.servers.isEmpty then some "no servers configured"
  else validateServersAux c.servers []

/-- `LoadConfig` on an existing document: migrate the legacy format when
needed, then validate. -/
def loadConfigDoc (doc : MCPConfig) : Except String MCPConfig :=
  let c := if needsLegacyMigration doc then migrateFromLegacy doc else doc
  match validateConfig c with
  | some e => Except.error e
  | none => Except.ok c

/-- The document `Config.Save` writes (and a reload unmarshals): only the
`servers` array survives. -/
def saveDocOf (c : MCPConfig) : MCPConfig := ⟨c.servers, []⟩

/-! ## Claim C7 -/

/-- Claim C7: any successfully-loaded configuration — whether the document
was in the legacy `mcpServers` map format or the `servers` list format —
survives a save/load round trip: the reload succeeds and yields exactly
the same `{name, command, args, env}` server tuples. -/
theorem loadConfig_save_roundtrip (doc c : MCPConfig)
    (h : loadConfigDoc doc = Except.ok c) :
    loadConfigDoc (saveDocOf c) = Except.ok (saveDocOf c) ∧
      (saveDocOf c).servers = c.servers := by
  refine ⟨?_, rfl⟩
  unfold loadConfigDoc at h
  have hval : validateConfig c = none := by
    cases hv : validateConfig
        (if needsLegacyMigration doc then migrateFromLegacy doc else doc) with
    | some e =>
      simp only [hv] at h
      exact absurd h (by simp)
    | none =>
      simp only [hv, Except.ok.injEq] at h
      rw [h] at hv
      exact hv
  have hmig : needsLegacyMigration (saveDocOf c) = false := rfl
  unfold loadConfigDoc
  rw [hmig]
  have hval' : validateConfig (saveDocOf c) = none := hval
  simp only [Bool.false_eq_true, if_false, hval']

/-- Witness for `loadConfig_save_roundtrip`: a legacy map-format document
whose entry takes its name from the map key. -/
def legacyDoc : MCPConfig := ⟨[], [("srv", ⟨"", "cmd", ["-v"], [("K", "V")]⟩)]⟩

theorem loadConfig_save_roundtrip_witness :
    loadConfigDoc (saveDocOf ⟨[⟨"srv", "cmd", ["-v"], [("K", "V")]⟩], []⟩) =
        Except.ok (saveDocOf ⟨[⟨"srv", "cmd", ["-v"], [("K", "V")]⟩], []⟩) ∧
      (saveDocOf ⟨[⟨"srv", "cmd", ["-v"], [("K", "V")]⟩], []⟩).servers =
        [⟨"srv", "cmd", ["-v"], [("K", "V")]⟩] :=
  loadConfig_save_roundtrip legacyDoc ⟨[⟨"srv", "cmd", ["-v"], [("K", "V")]⟩], []⟩ rfl

/-! ## `RetryOperation` (pkg/mcp/utils.go) and `RefreshToolDiscovery`
(pkg/mcp/discovery.go)

`RetryOperation` runs `operation()` up to `MaxRetries` times; between
attempts it waits in a `select` on `ctx.Done()` versus `time.After(delay)`,
so a context cancelled during the wait returns the "operation cancelled"
error at once, with no further executions.  `opFails i` is attempt `i`'s
outcome (1-indexed) and `cancelledAt i` tells whether the caller's context
is cancelled during the wait following attempt `i`; the trace's second
component counts how many times the operation ran.  The backoff delay
itself (`calculateBackoffDelay`, float64 arithmetic) affects only timing,
not the outcome, and is not modelled. -/

structure RetryConfig where
  maxRetries : Nat
  baseDelayMs : Nat
  maxDelayMs : Nat
  description : String
deriving DecidableEq, Repr

/-- `DefaultRetryConfig`: 3 attempts, 1s base delay, 10s cap. -/
def DefaultRetryConfig (description : String) : RetryConfig :=
  ⟨3, 1000, 10000, description⟩

inductive RetryOutcome where
  | opSuccess
  | opCancelled
  | opExhausted
deriving DecidableEq, Repr

def retryLoop (opFails cancelledAt : Nat → Bool) : Nat → Nat → RetryOutcome × Nat
  | _, 0 => (RetryOutcome.opExhausted, 0)
  | attempt, Nat.succ rem =>
    if opFails attempt = false then (RetryOutcome.opSuccess, 1)
    else if rem = 0 then (RetryOutcome.opExhausted, 1)
    else if cancelledAt attempt then (RetryOutcome.opCancelled, 1)
    else
      let t := retryLoop opFails cancelledAt (attempt + 1) rem
      (t.1, t.2 + 1)

/-- `RetryOperation(ctx, config, operation)`. -/
def retryOperation (cfg : RetryConfig) (opFails cancelledAt : Nat → Bool) :
    RetryOutcome × Nat :=
  retryLoop opFails cancelledAt 1 cfg.maxRetries

/-- `Manager.RefreshToolDiscovery`: tool discovery wrapped in
`RetryOperation` with `DefaultRetryConfig` (the variant with the inline
3-attempt loop shares the attempt count but sleeps uncancellably). -/
def refreshToolDiscovery (listFails cancelledAt : Nat → Bool) : RetryOutcome × Nat :=
  retryOperation (DefaultRetryConfig "tool discovery from MCP servers") listFails cancelledAt

/-! ## Claim C8 -/

/-- Claim C8: (1) a discovery operation failing on attempts 1 and 2 and
succeeding on attempt 3 is executed exactly 3 times by the retry helper;
(2) a context cancelled while the helper waits after attempt `k` makes it
return the cancellation outcome immediately — the operation has run
exactly `k` times and is never run again. -/
theorem retry_discovery_spec :
    (∀ opFails cancelledAt, opFails 1 = true → opFails 2 = true → opFails 3 = false →
      cancelledAt 1 = false → cancelledAt 2 = false →
      refreshToolDiscovery opFails cancelledAt = (RetryOutcome.opSuccess, 3)) ∧
    (∀ opFails cancelledAt k, 1 ≤ k → k < 3 →
      (∀ j, 1 ≤ j → j ≤ k → opFails j = true) →
      (∀ j, 1 ≤ j → j < k → cancelledAt j = false) →
      cancelledAt k = true →
      refreshToolDiscovery opFails cancelledAt = (RetryOutcome.opCancelled, k)) := by
  constructor
  · intro opFails cancelledAt h1 h2 h3 hc1 hc2
    unfold refreshToolDiscovery retryOperation DefaultRetryConfig
    simp only
    unfold retryLoop
    simp [h1, h2, h3, hc1, hc2, retryLoop]
  · intro opFails cancelledAt k hk1 hk3 hfail hnc hck
    unfold refreshToolDiscovery retryOperation DefaultRetryConfig
    simp only
    match k, hk1, hk3 with
    | 1, _, _ =>
      have h1 : opFails 1 = true := hfail 1 (by omega) (by omega)
      unfold retryLoop
      simp [h1, hck]
    | 2, _, _ =>
      have h1 : opFails 1 = true := hfail 1 (by omega) (by omega)
      have h2 : opFails 2 = true := hfail 2 (by omega) (by omega)
      have hc1 : cancelledAt 1 = false := hnc 1 (by omega) (by omega)
      unfold retryLoop
      simp [h1, h2, hc1, hck, retryLoop]

/-- Witness for `retry_discovery_spec`. -/
theorem retry_discovery_spec_witness :
    refreshToolDiscovery (fun i => i < 3) (fun _ => false) =
        (RetryOutcome.opSuccess, 3) ∧
      refreshToolDiscovery (fun _ => true) (fun i => i = 2) =
        (RetryOutcome.opCancelled, 2) :=
  ⟨retry_discovery_spec.1 (fun i => i < 3) (fun _ => false)
      (by decide) (by decide) (by decide) rfl rfl,
   retry_discovery_spec.2 (fun _ => true) (fun i => i = 2) 2 (by omega) (by omega)
      (fun j _ _ => rfl)
      (fun j h1 h2 => by simp only [decide_eq_false_iff_not]; omega) (by decide)⟩

/-! ## String helpers shared by the proxy-adapter argument conversion
(pkg/tools/mcp_tool.go)

`strings.ToLower` / `strings.ToUpper` are modelled per character; the code
only compares against ASCII patterns (`count`, `is`, …), for which the
ASCII case mapping agrees with Go's Unicode one. -/

def asciiToLower (s : String) : String := ⟨s.data.map Char.toLower⟩

/-- Go `strings.Contains(s, sub)`. -/
def goContains (s sub : String) : Bool := (firstIdx sub.data s.data).isSome

/-- Go `strings.HasPrefix(s, p)`. -/
def goStartsWith (s p : String) : Bool := p.data.isPrefixOf s.data

theorem firstIdx_eq_none {pat s : List Char} :
    firstIdx pat s = none ↔ ∀ m, ¬ pat <+: s.drop m := by
  induction s with
  | nil =>
    by_cases h : pat.isPrefixOf ([] : List Char)
    · simp only [firstIdx, if_pos h]
      constructor
      · intro hfalse; exact absurd hfalse (by simp)
      · intro hall
        exact absurd (List.isPrefixOf_iff_prefix.mp h) (by simpa using hall 0)
    · simp only [firstIdx, if_neg h]
      constructor
      · intro _ m hp
        have : pat <+: ([] : List Char) := by simpa using hp
        exact h (List.isPrefixOf_iff_prefix.mpr this)
      · intro _; trivial
  | cons c t ih =>
    simp only [firstIdx]
    by_cases h : pat.isPrefixOf (c :: t)
    · simp only [if_pos h]
      constructor
      · intro hfalse; exact absurd hfalse (by simp)
      · intro hall
        exact absurd (List.isPrefixOf_iff_prefix.mp h) (by simpa using hall 0)
    · simp only [if_neg h]
      constructor
      · intro hnone m
        have ht : firstIdx pat t = none := by
          cases hft : firstIdx pat t with
          | none => rfl
          | some i => rw [hft] at hnone; exact absurd hnone (by simp)
        match m with
        | 0 =>
          intro hp
          exact h (List.isPrefixOf_iff_prefix.mpr (by simpa using hp))
        | Nat.succ m' =>
          intro hp
          exact (ih.mp ht) m' (by simpa using hp)
      · intro hall
        have ht : firstIdx pat t = none :=
          ih.mpr (fun m hp => hall (m + 1) (by simpa using hp))
        simp [ht]

theorem infix_iff_exists_drop {pat s : List Char} :
    pat <:+: s ↔ ∃ m, pat <+: s.drop m := by
  constructor
  · rintro ⟨u, v, rfl⟩
    refine ⟨u.length, ?_⟩
    rw [List.append_assoc, List.drop_left]
    exact List.prefix_append _ _
  · rintro ⟨m, hp⟩
    obtain ⟨v, hv⟩ := hp
    refine ⟨s.take m, v, ?_⟩
    rw [List.append_assoc, hv]
    exact List.take_append_drop m s

theorem goContains_iff {s sub : String} :
    goContains s sub = true ↔ sub.data <:+: s.data := by
  unfold goContains
  rw [infix_iff_exists_drop]
  constructor
  · intro hsome
    obtain ⟨n, hn⟩ := Option.isSome_iff_exists.mp hsome
    exact ⟨n, (firstIdx_eq_some.mp hn).1⟩
  · rintro ⟨m, hm⟩
    cases hf : firstIdx sub.data s.data with
    | none => exact absurd hm (firstIdx_eq_none.mp hf m)
    | some n => rfl

/-! ## `strconv` as used by the proxy adapter

`goAtoi` models `strconv.Atoi` exactly (optional sign, decimal digits,
64-bit range check).  `goParseFloatOk` models the *success domain* of
`strconv.ParseFloat(s, 64)` — special values (`inf`/`infinity`/`nan`,
case-insensitive, optionally signed), decimal mantissa/exponent forms and
hex-float forms, with underscores — biased toward acceptance: every string
Go parses is accepted (over-acceptance only shrinks the class of inputs
the pass-through theorem speaks about; the parsed value itself is kept as
its literal, floating-point arithmetic being outside the model). -/

def parseDigits (l : List Char) : Option Nat :=
  if l = [] then none
  else if l.all Char.isDigit then
    some (l.foldl (fun acc c => acc * 10 + (c.toNat - 48)) 0)
  else none

def goAtoi (s : String) : Option Int :=
  match s.data with
  | '+' :: rest => (parseDigits rest).bind (fun n =>
      if n ≤ 9223372036854775807 then some (Int.ofNat n) else none)
  | '-' :: rest => (parseDigits rest).bind (fun n =>
      if n ≤ 9223372036854775808 then some (-(Int.ofNat n)) else none)
  | l => (parseDigits l).bind (fun n =>
      if n ≤ 9223372036854775807 then some (Int.ofNat n) else none)

def stripSign (l : List Char) : List Char :=
  match l with
  | '+' :: r => r
  | '-' :: r => r
  | r => r

def splitAtChar (c : Char) : List Char → List Char × Option (List Char)
  | [] => ([], none)
  | x :: r =>
    if x = c then ([], some r)
    else
      let p := splitAtChar c r
      (x :: p.1, p.2)

def isHexDigitChar (c : Char) : Bool :=
  c.isDigit || ('a' ≤ c && c ≤ 'f')

def mantissaOk (digit : Char → Bool) (l : List Char) : Bool :=
  l.all (fun c => digit c || c = '_' || c = '.') &&
  (l.countP (fun c => c = '.') ≤ 1) &&
  l.any digit

def exponentOk : Option (List Char) → Bool
  | none => true
  | some e =>
    let e := stripSign e
    e.all (fun c => c.isDigit || c = '_') && e.any Char.isDigit

def goParseFloatOk (s : String) : Bool :=
  let low := (stripSign s.data).map Char.toLower
  if low = "inf".data || low = "infinity".data || low = "nan".data then true
  else
    match low with
    | '0' :: 'x' :: r =>
      let p := splitAtChar 'p' r
      mantissaOk isHexDigitChar p.1 && exponentOk p.2
    | r =>
      let p := splitAtChar 'e' r
      mantissaOk Char.isDigit p.1 && exponentOk p.2

/-- Truncation toward zero of a decimal float literal (the `int(v)` branch
of `convertToNumber`; exact decimal semantics — float64 rounding of the
literal is not modelled). -/
def floatLitTrunc (s : String) : Int :=
  let neg := match s.data with
             | '-' :: _ => true
             | _ => false
  let l := (stripSign s.data).map Char.toLower |>.filter (fun c => c ≠ '_')
  let p := splitAtChar 'e' l
  let expVal : Int :=
    match p.2 with
    | none => 0
    | some e =>
      let eneg := match e with
                  | '-' :: _ => true
                  | _ => false
      let ev := ((stripSign e).foldl (fun acc c => acc * 10 + (c.toNat - 48)) 0 : Nat)
      if eneg then -(Int.ofNat ev) else Int.ofNat ev
  let m := splitAtChar '.' p.1
  let fracLen : Nat := match m.2 with
                       | none => 0
                       | some f => f.length
  let digits := m.1 ++ (match m.2 with
                        | none => []
                        | some f => f)
  let mval : Nat := digits.foldl (fun acc c => acc * 10 + (c.toNat - 48)) 0
  let shift : Int := expVal - Int.ofNat fracLen
  let mag : Nat :=
    match shift with
    | Int.ofNat k => mval * 10 ^ k
    | Int.negSucc k => mval / 10 ^ (k + 1)
  if neg then -(Int.ofNat mag) else Int.ofNat mag

/-! ## Proxy adapter argument conversion (pkg/tools/mcp_tool.go) -/

/-- `strconv.ParseBool`. -/
def goParseBool (s : String) : Option Bool :=
  if s = "1" || s = "t" || s = "T" || s = "TRUE" || s = "true" || s = "True" then
    some true
  else if s = "0" || s = "f" || s = "F" || s = "FALSE" || s = "false" || s = "False" then
    some false
  else none

/-- `convertToNumber`: strings through `Atoi` then `ParseFloat`, keeping
the original value when both fail; a float64 is truncated to int;
integers pass through. -/
def convertToNumber (value : GoValue) : GoValue :=
  match value with
  | GoValue.str s =>
    match goAtoi s with
    | some n => GoValue.int n
    | none => if goParseFloatOk s then GoValue.float s else value
  | GoValue.float s => GoValue.int (floatLitTrunc s)
  | GoValue.int _ => value
  | _ => value

/-- `convertToBoolean`: strings through `ParseBool` (original kept on
failure), booleans pass through, ints become `v != 0`. -/
def convertToBoolean (value : GoValue) : GoValue :=
  match value with
  | GoValue.str s =>
    match goParseBool s with
    | some b => GoValue.bool b
    | none => value
  | GoValue.bool b => GoValue.bool b
  | GoValue.int n => GoValue.bool (decide (n ≠ 0))
  | _ => value

/-- `convertValueType`: name-pattern driven coercion — number patterns
(`number`, `count`, `total`, `max`, `min`, `limit` as substrings of the
lower-cased name) first, then boolean patterns (`is`/`has`/`needs`/
`enable` prefixes, `required`/`enabled` substrings), else unchanged. -/
def convertValueType (paramName : String) (value : GoValue) : GoValue :=
  let lowerName := asciiToLower paramName
  if goContains lowerName "number" || goContains lowerName "count" ||
      goContains lowerName "total" || goContains lowerName "max" ||
      goContains lowerName "min" || goContains lowerName "limit" then
    convertToNumber value
  else if goStartsWith lowerName "is" || goStartsWith lowerName "has" ||
      goStartsWith lowerName "needs" || goStartsWith lowerName "enable" ||
      goContains lowerName "required" || goContains lowerName "enabled" then
    convertToBoolean value
  else value

/-- `strings.ToUpper(part[:1]) + part[1:]`. -/
def upperFirst (part : String) : String :=
  match part.data with
  | [] => part
  | c :: rest => ⟨c.toUpper :: rest⟩

/-- Go `strings.Split(s, "_")` (single-character separator). -/
def splitOnChar (c : Char) : List Char → List (List Char)
  | [] => [[]]
  | x :: r =>
    if x = c then [] :: splitOnChar c r
    else
      match splitOnChar c r with
      | [] => [[x]]
      | h :: t => (x :: h) :: t

def goSplitUnderscore (s : String) : List String :=
  (splitOnChar '_' s.data).map (fun l => ⟨l⟩)

/-- `snakeToCamelCase`: no-op without an underscore; otherwise split on
`_`, keep the first part, capitalize the first byte of each later
non-empty part. -/
def snakeToCamelCase (s : String) : String :=
  if goContains s "_" = false then s
  else
    match goSplitUnderscore s with
    | [] => s
    | [_] => s
    | p :: rest =>
      rest.foldl (fun acc part =>
        if part.length > 0 then acc ++ upperFirst part else acc) p

/-- Go map insert `converted[convertedKey] = convertedValue` on the
association-list model (replace an existing key, else append;
the Go map's iteration order over `args` is irrelevant to the properties
proved, which are order-independent). -/
def mapInsert (m : List (String × GoValue)) (k : String) (v : GoValue) :
    List (String × GoValue) :=
  if (m.find? (fun kv => kv.1 = k)).isSome then
    m.map (fun kv => if kv.1 = k then (k, v) else kv)
  else m ++ [(k, v)]

/-- `convertArgsForMCP`: convert each key with `snakeToCamelCase`, each
value with `convertValueType` under the converted key, and store the
result under the converted key. -/
def convertArgsForMCP (args : List (String × GoValue)) : List (String × GoValue) :=
  args.foldl (fun conv kv =>
    let convertedKey := snakeToCamelCase kv.1
    mapInsert conv convertedKey (convertValueType convertedKey kv.2)) []

/-! ## Claim C9 -/

theorem toLower_count : ("count".data).map Char.toLower = "count".data := by decide

/-- Claim C9: under any (converted) argument key containing `count`, the
string `"5"` is coerced to the integer 5, and a string that parses as
neither an integer (`Atoi`) nor a float (`ParseFloat`) passes through
unchanged. -/
theorem convertValueType_count_coercion :
    (∀ k : String, "count".data <:+: (asciiToLower k).data →
      convertValueType k (GoValue.str "5") = GoValue.int 5) ∧
    (∀ (k s : String), "count".data <:+: (asciiToLower k).data →
      goAtoi s = none → goParseFloatOk s = false →
      convertValueType k (GoValue.str s) = GoValue.str s) := by
  have hcount : ∀ k : String, "count".data <:+: (asciiToLower k).data →
      goContains (asciiToLower k) "count" = true :=
    fun k hk => goContains_iff.mpr hk
  constructor
  · intro k hk
    simp only [convertValueType, hcount k hk, Bool.true_or, Bool.or_true, if_true]
    decide
  · intro k s hk hatoi hfloat
    simp only [convertValueType, hcount k hk, Bool.true_or, Bool.or_true, if_true]
    simp only [convertToNumber, hatoi, hfloat, Bool.false_eq_true, if_false]

/-- Witness for `convertValueType_count_coercion` at key `"maxCount"`
(camel-case form of `max_count`) and non-numeric string `"hello"`. -/
theorem convertValueType_count_coercion_witness :
    convertValueType "maxCount" (GoValue.str "5") = GoValue.int 5 ∧
      convertValueType "maxCount" (GoValue.str "hello") = GoValue.str "hello" :=
  ⟨convertValueType_count_coercion.1 "maxCount" (by decide),
   convertValueType_count_coercion.2 "maxCount" "hello" (by decide)
     (by decide) (by decide)⟩

/-! ## Claim C10 -/

/-- Claim C10: the key normalization is not injective — `"max_count"` and
`"maxCount"` both normalize to `"maxCount"`, so an argument map holding
both keys shrinks from 2 entries to 1 under `convertArgsForMCP`: the
first value is silently overwritten by the second before the remote
call. -/
theorem convertArgs_key_collision :
    snakeToCamelCase "max_count" = "maxCount" ∧
      snakeToCamelCase "maxCount" = "maxCount" ∧
      ([("max_count", GoValue.str "7"), ("maxCount", GoValue.str "8")] :
        List (String × GoValue)).length = 2 ∧
      convertArgsForMCP [("max_count", GoValue.str "7"), ("maxCount", GoValue.str "8")] =
        [("maxCount", GoValue.int 8)] ∧
      (convertArgsForMCP
        [("max_count", GoValue.str "7"), ("maxCount", GoValue.str "8")]).length = 1 := by
  exact ⟨by decide, by decide, by decide, by decide, by decide⟩

end KubectlAI
